import Mathlib

/- Shallow embedding of the hearsay repository (src/hearsay/review.py and
   src/hearsay/tts.py).  Python strings are modelled as lists of characters,
   remote calls as function parameters, and raised exceptions as `Except`.
   Thread pools consuming futures via `as_completed` are modelled by an
   explicit completion schedule: a list of unit indices in completion order. -/

/-- Python strings are modelled as lists of characters. -/
abbrev Str := List Char

/-- Conversion from Lean string literals to the model type. -/
def str (s : String) : Str := s.data

/-- The paragraph separator, the Python literal "\n\n" used throughout the source. -/
def nl2 : Str := ['\n', '\n']

/-- Locate the first occurrence of `pat` in `s`: `some (p, r)` means `s = p ++ pat ++ r`
with the occurrence chosen leftmost.  This models the left-to-right scan performed by
Python `s.split(pat)`, `s.replace(pat, _)` and the `in` operator. -/
def findSplit (pat : Str) : Str → Option (Str × Str)
  | [] => none
  | c :: rest =>
    if pat.isPrefixOf (c :: rest) then some ([], List.drop (pat.length - 1) rest)
    else (findSplit pat rest).map (fun pr => (c :: pr.1, pr.2))

theorem findSplit_length {pat : Str} {s p r : Str} (h : findSplit pat s = some (p, r)) :
    r.length < s.length := by
  induction s generalizing p r with
  | nil => simp [findSplit] at h
  | cons c rest ih =>
    rw [findSplit] at h
    split at h
    · rcases h with ⟨⟩
      simp only [List.length_drop, List.length_cons]
      omega
    · rcases Option.map_eq_some'.mp h with ⟨pr, hpr, heq⟩
      rcases heq with ⟨⟩
      exact Nat.lt_succ_of_lt (ih hpr)

theorem findSplit_decomp {pat : Str} (hpat : pat ≠ []) {s p r : Str}
    (h : findSplit pat s = some (p, r)) : s = p ++ pat ++ r := by
  induction s generalizing p r with
  | nil => simp [findSplit] at h
  | cons c rest ih =>
    rw [findSplit] at h
    split at h
    · next hpre =>
      rcases h with ⟨⟩
      rcases List.isPrefixOf_iff_prefix.mp hpre with ⟨t, ht⟩
      rcases pat with _ | ⟨pc, ptl⟩
      · exact absurd rfl hpat
      · have hdrop : t = List.drop ptl.length rest := by
          have h2 := congrArg (List.drop (pc :: ptl).length) ht
          rw [List.drop_left] at h2
          simpa [List.drop_succ_cons] using h2
        simp only [List.length_cons, Nat.add_sub_cancel, List.nil_append]
        rw [← hdrop]
        exact ht.symm
    · rcases Option.map_eq_some'.mp h with ⟨pr, hpr, heq⟩
      rcases heq with ⟨⟩
      simpa using ih hpr

theorem findSplit_pat_le {pat : Str} (hpat : pat ≠ []) {s p r : Str}
    (h : findSplit pat s = some (p, r)) : pat.length ≤ s.length := by
  have hd := findSplit_decomp hpat h
  subst hd
  simp
  omega

theorem not_isPrefixOf_append {pat l d : Str} (hlen : pat.length ≤ l.length)
    (h : ¬ pat.isPrefixOf l) : ¬ pat.isPrefixOf (l ++ d) := by
  intro hc
  apply h
  rw [List.isPrefixOf_iff_prefix] at hc ⊢
  have hp : pat = List.take pat.length (l ++ d) := List.prefix_iff_eq_take.mp hc
  rw [List.take_append_of_le_length hlen] at hp
  rw [hp]
  exact List.take_prefix _ _

/-- Appending on the right does not change the first occurrence of a pattern. -/
theorem findSplit_append {pat : Str} (hpat : pat ≠ []) {s p r : Str} (d : Str)
    (h : findSplit pat s = some (p, r)) : findSplit pat (s ++ d) = some (p, r ++ d) := by
  induction s generalizing p r with
  | nil => simp [findSplit] at h
  | cons c rest ih =>
    rw [findSplit] at h
    split at h
    · next hpre =>
      rcases h with ⟨⟩
      have hpre' : pat.isPrefixOf (c :: (rest ++ d)) := by
        rw [show c :: (rest ++ d) = (c :: rest) ++ d from rfl]
        rw [List.isPrefixOf_iff_prefix] at hpre ⊢
        exact hpre.trans (List.prefix_append _ _)
      rw [List.cons_append, findSplit, if_pos hpre']
      have hlen : pat.length - 1 ≤ rest.length := by
        rcases pat with _ | ⟨pc, ptl⟩
        · exact absurd rfl hpat
        · rcases List.isPrefixOf_iff_prefix.mp hpre with ⟨t, ht⟩
          have hl := congrArg List.length ht
          simp at hl
          simp
          omega
      rw [List.drop_append_of_le_length hlen]
    · next hpre =>
      rcases Option.map_eq_some'.mp h with ⟨pr, hpr, heq⟩
      rcases heq with ⟨⟩
      have hlen : pat.length ≤ (c :: rest).length :=
        Nat.le_of_lt (Nat.lt_of_le_of_lt (findSplit_pat_le hpat hpr) (by simp))
      have hpre2 : ¬ pat.isPrefixOf (c :: (rest ++ d)) := by
        rw [show c :: (rest ++ d) = (c :: rest) ++ d from rfl]
        exact not_isPrefixOf_append hlen hpre
      rw [List.cons_append, findSplit, if_neg hpre2, ih hpr]
      rfl

/-- Python `pat in s` (substring containment). -/
def pyContains (pat s : Str) : Bool := (findSplit pat s).isSome

/-- Fuel-indexed worker for `pySplitOn`; the fuel only bounds the number of
iterations and is always supplied large enough to be irrelevant. -/
def pySplitOnF (pat : Str) : Nat → Str → List Str
  | 0, s => [s]
  | fuel + 1, s =>
    match findSplit pat s with
    | none => [s]
    | some (p, r) => p :: pySplitOnF pat fuel r

/-- Python `s.split(pat)` for a nonempty separator `pat`: repeatedly split off the
part before the leftmost occurrence of `pat`. -/
def pySplitOn (pat s : Str) : List Str := pySplitOnF pat s.length s

theorem pySplitOnF_congr (pat : Str) {f1 f2 : Nat} {s : Str} (h1 : s.length ≤ f1)
    (h2 : s.length ≤ f2) : pySplitOnF pat f1 s = pySplitOnF pat f2 s := by
  induction f1 generalizing f2 s with
  | zero =>
    have hs : s = [] := List.length_eq_zero.mp (Nat.le_zero.mp h1)
    subst hs
    cases f2 with
    | zero => rfl
    | succ f2 => simp [pySplitOnF, findSplit]
  | succ f1 ih =>
    cases f2 with
    | zero =>
      have hs : s = [] := List.length_eq_zero.mp (Nat.le_zero.mp h2)
      subst hs
      simp [pySplitOnF, findSplit]
    | succ f2 =>
      rw [pySplitOnF, pySplitOnF]
      cases hfs : findSplit pat s with
      | none => rfl
      | some pr =>
        obtain ⟨p, r⟩ := pr
        have hlt : r.length < s.length := findSplit_length hfs
        show p :: pySplitOnF pat f1 r = p :: pySplitOnF pat f2 r
        exact congrArg _ (ih (by omega) (by omega))

/-- Unfolding equation for `pySplitOn`, mirroring the recursion of repeated
Python `s.split(pat, 1)`. -/
theorem pySplitOn_eq (pat s : Str) :
    pySplitOn pat s =
      match findSplit pat s with
      | none => [s]
      | some (p, r) => p :: pySplitOn pat r := by
  have h1 : pySplitOn pat s = pySplitOnF pat (s.length + 1) s :=
    pySplitOnF_congr pat (Nat.le_refl _) (Nat.le_succ _)
  rw [h1, pySplitOnF]
  cases hfs : findSplit pat s with
  | none => rfl
  | some pr =>
    obtain ⟨p, r⟩ := pr
    have hlt : r.length < s.length := findSplit_length hfs
    show p :: pySplitOnF pat s.length r = p :: pySplitOn pat r
    exact congrArg _ (pySplitOnF_congr pat (by omega) (Nat.le_refl _))

theorem pySplitOn_ne_nil (pat s : Str) : pySplitOn pat s ≠ [] := by
  rw [pySplitOn_eq]
  cases findSplit pat s with
  | none => simp
  | some pr => simp

/-- Fuel-indexed worker for `pyReplace`. -/
def pyReplaceF (pat repl : Str) : Nat → Str → Str
  | 0, s => s
  | fuel + 1, s =>
    match findSplit pat s with
    | none => s
    | some (p, r) => p ++ repl ++ pyReplaceF pat repl fuel r

/-- Python `s.replace(pat, repl)` for a nonempty `pat`: every non-overlapping
occurrence of `pat`, scanned left to right, is replaced by `repl`. -/
def pyReplace (pat repl s : Str) : Str := pyReplaceF pat repl s.length s

theorem pyReplaceF_congr (pat repl : Str) {f1 f2 : Nat} {s : Str} (h1 : s.length ≤ f1)
    (h2 : s.length ≤ f2) : pyReplaceF pat repl f1 s = pyReplaceF pat repl f2 s := by
  induction f1 generalizing f2 s with
  | zero =>
    have hs : s = [] := List.length_eq_zero.mp (Nat.le_zero.mp h1)
    subst hs
    cases f2 with
    | zero => rfl
    | succ f2 => simp [pyReplaceF, findSplit]
  | succ f1 ih =>
    cases f2 with
    | zero =>
      have hs : s = [] := List.length_eq_zero.mp (Nat.le_zero.mp h2)
      subst hs
      simp [pyReplaceF, findSplit]
    | succ f2 =>
      rw [pyReplaceF, pyReplaceF]
      cases hfs : findSplit pat s with
      | none => rfl
      | some pr =>
        obtain ⟨p, r⟩ := pr
        have hlt : r.length < s.length := findSplit_length hfs
        show p ++ repl ++ pyReplaceF pat repl f1 r = p ++ repl ++ pyReplaceF pat repl f2 r
        exact congrArg _ (ih (by omega) (by omega))

/-- Unfolding equation for `pyReplace`. -/
theorem pyReplace_eq (pat repl s : Str) :
    pyReplace pat repl s =
      match findSplit pat s with
      | none => s
      | some (p, r) => p ++ repl ++ pyReplace pat repl r := by
  have h1 : pyReplace pat repl s = pyReplaceF pat repl (s.length + 1) s :=
    pyReplaceF_congr pat repl (Nat.le_refl _) (Nat.le_succ _)
  rw [h1, pyReplaceF]
  cases hfs : findSplit pat s with
  | none => rfl
  | some pr =>
    obtain ⟨p, r⟩ := pr
    have hlt : r.length < s.length := findSplit_length hfs
    show p ++ repl ++ pyReplaceF pat repl s.length r = p ++ repl ++ pyReplace pat repl r
    exact congrArg _ (pyReplaceF_congr pat repl (by omega) (Nat.le_refl _))

/-- Python `sep.join(parts)`. -/
def pyJoin (sep : Str) : List Str → Str
  | [] => []
  | [x] => x
  | x :: y :: xs => x ++ sep ++ pyJoin sep (y :: xs)

theorem pyJoin_cons_cons (sep x y : Str) (xs : List Str) :
    pyJoin sep (x :: y :: xs) = x ++ sep ++ pyJoin sep (y :: xs) := rfl

theorem pyJoin_cons_of_ne_nil (sep x : Str) {xs : List Str} (h : xs ≠ []) :
    pyJoin sep (x :: xs) = x ++ sep ++ pyJoin sep xs := by
  cases xs with
  | nil => exact absurd rfl h
  | cons y ys => rfl

/-- Replacement distributes as a join of the split parts. -/
theorem pyReplace_eq_pyJoin_aux (pat repl : Str) :
    ∀ (n : Nat) (s : Str), s.length ≤ n →
      pyReplace pat repl s = pyJoin repl (pySplitOn pat s) := by
  intro n
  induction n with
  | zero =>
    intro s hs
    have : s = [] := List.length_eq_zero.mp (Nat.le_zero.mp hs)
    subst this
    rw [pyReplace_eq, pySplitOn_eq]
    simp [findSplit, pyJoin]
  | succ n ih =>
    intro s hs
    rw [pyReplace_eq, pySplitOn_eq]
    cases hfs : findSplit pat s with
    | none => rfl
    | some pr =>
      obtain ⟨p, r⟩ := pr
      have hlt : r.length < s.length := findSplit_length hfs
      show p ++ repl ++ pyReplace pat repl r = pyJoin repl (p :: pySplitOn pat r)
      rw [pyJoin_cons_of_ne_nil repl p (pySplitOn_ne_nil pat r), ih r (by omega)]

theorem pyReplace_eq_pyJoin (pat repl s : Str) :
    pyReplace pat repl s = pyJoin repl (pySplitOn pat s) :=
  pyReplace_eq_pyJoin_aux pat repl s.length s (Nat.le_refl _)

/-- Splitting on a nonempty separator is lossless: joining with the separator
recovers the original string. -/
theorem pyJoin_pySplitOn_aux (pat : Str) (hpat : pat ≠ []) :
    ∀ (n : Nat) (s : Str), s.length ≤ n → pyJoin pat (pySplitOn pat s) = s := by
  intro n
  induction n with
  | zero =>
    intro s hs
    have : s = [] := List.length_eq_zero.mp (Nat.le_zero.mp hs)
    subst this
    rw [pySplitOn_eq]
    simp [findSplit, pyJoin]
  | succ n ih =>
    intro s hs
    rw [pySplitOn_eq]
    cases hfs : findSplit pat s with
    | none => rfl
    | some pr =>
      obtain ⟨p, r⟩ := pr
      have hlt : r.length < s.length := findSplit_length hfs
      show pyJoin pat (p :: pySplitOn pat r) = s
      rw [pyJoin_cons_of_ne_nil pat p (pySplitOn_ne_nil pat r), ih r (by omega)]
      exact (findSplit_decomp hpat hfs).symm

theorem pyJoin_pySplitOn (pat : Str) (hpat : pat ≠ []) (s : Str) :
    pyJoin pat (pySplitOn pat s) = s :=
  pyJoin_pySplitOn_aux pat hpat s.length s (Nat.le_refl _)

/-- Python whitespace test (the ASCII whitespace characters). -/
def pyIsSpace (c : Char) : Bool :=
  c == ' ' || c == '\t' || c == '\n' || c == '\r' || c == '\x0b' || c == '\x0c'

/-- Python `s.strip()`. -/
def pyStrip (s : Str) : Str :=
  ((s.dropWhile pyIsSpace).reverse.dropWhile pyIsSpace).reverse

/- ===== review.py : _chunk_text ===== -/

/-- Embeds the call `text.split("\n\n")` at the top of `_chunk_text`. -/
def splitParagraphs (text : Str) : List Str := pySplitOn nl2 text

/-- Loop of `_chunk_text` (review.py lines 145-159): greedily pack paragraphs.
`current` is the list of paragraphs of the unit under construction and
`currentLen` the running value of the Python variable `current_len` (sum of the
paragraph lengths, separators not counted). -/
def chunkAux (maxChars : Nat) : List Str → List Str → Nat → List Str
  | [], current, _ =>
    if current = [] then [] else [pyJoin nl2 current]
  | para :: paras, current, currentLen =>
    if currentLen + para.length > maxChars ∧ current ≠ [] then
      pyJoin nl2 current :: chunkAux maxChars paras [para] para.length
    else
      chunkAux maxChars paras (current ++ [para]) (currentLen + para.length)

/-- Embeds `_chunk_text(text, max_chars=12000)` from review.py. -/
def chunk_text (text : Str) (maxChars : Nat := 12000) : List Str :=
  chunkAux maxChars (splitParagraphs text) [] 0

/-- Companion of `chunkAux` that returns the paragraph groups before they are
joined; used to state structural properties of the chunking. -/
def chunkGroups (maxChars : Nat) : List Str → List Str → Nat → List (List Str)
  | [], current, _ => if current = [] then [] else [current]
  | para :: paras, current, currentLen =>
    if currentLen + para.length > maxChars ∧ current ≠ [] then
      current :: chunkGroups maxChars paras [para] para.length
    else
      chunkGroups maxChars paras (current ++ [para]) (currentLen + para.length)

theorem chunkAux_eq_map (maxChars : Nat) (paras : List Str) :
    ∀ (current : List Str) (currentLen : Nat),
      chunkAux maxChars paras current currentLen =
        (chunkGroups maxChars paras current currentLen).map (pyJoin nl2) := by
  induction paras with
  | nil =>
    intro current currentLen
    rw [chunkAux, chunkGroups]
    by_cases h : current = [] <;> simp [h]
  | cons para paras ih =>
    intro current currentLen
    rw [chunkAux, chunkGroups]
    by_cases h : currentLen + para.length > maxChars ∧ current ≠ []
    · rw [if_pos h, if_pos h, ih]
      rfl
    · rw [if_neg h, if_neg h, ih]

theorem chunkGroups_flatten (maxChars : Nat) (paras : List Str) :
    ∀ (current : List Str) (currentLen : Nat),
      (chunkGroups maxChars paras current currentLen).flatten = current ++ paras := by
  induction paras with
  | nil =>
    intro current currentLen
    rw [chunkGroups]
    by_cases h : current = [] <;> simp [h]
  | cons para paras ih =>
    intro current currentLen
    rw [chunkGroups]
    by_cases h : currentLen + para.length > maxChars ∧ current ≠ []
    · rw [if_pos h]
      simp [ih]
    · rw [if_neg h]
      simp [ih]

theorem chunkGroups_ne_nil (maxChars : Nat) (paras : List Str) :
    ∀ (current : List Str) (currentLen : Nat) (g : List Str),
      g ∈ chunkGroups maxChars paras current currentLen → g ≠ [] := by
  induction paras with
  | nil =>
    intro current currentLen g hg
    rw [chunkGroups] at hg
    by_cases h : current = []
    · simp [h] at hg
    · simp [h] at hg
      simpa [hg] using h
  | cons para paras ih =>
    intro current currentLen g hg
    rw [chunkGroups] at hg
    by_cases h : currentLen + para.length > maxChars ∧ current ≠ []
    · rw [if_pos h] at hg
      rcases List.mem_cons.mp hg with rfl | hg'
      · exact h.2
      · exact ih _ _ _ hg'
    · rw [if_neg h] at hg
      exact ih _ _ _ hg

/-- Size invariant of the packing loop: every emitted group is a single paragraph
or has paragraph-length sum at most the threshold. -/
theorem chunkGroups_size (maxChars : Nat) (paras : List Str) :
    ∀ (current : List Str) (currentLen : Nat),
      currentLen = (current.map List.length).sum →
      (current = [] ∨ current.length = 1 ∨ currentLen ≤ maxChars) →
      ∀ g ∈ chunkGroups maxChars paras current currentLen,
        g.length = 1 ∨ (g.map List.length).sum ≤ maxChars := by
  induction paras with
  | nil =>
    intro current currentLen hsum hinv g hg
    rw [chunkGroups] at hg
    by_cases h : current = []
    · simp [h] at hg
    · simp [h] at hg
      subst hg
      rcases hinv with h1 | h1 | h1
      · exact absurd h1 h
      · exact Or.inl h1
      · exact Or.inr (hsum ▸ h1)
  | cons para paras ih =>
    intro current currentLen hsum hinv g hg
    rw [chunkGroups] at hg
    by_cases h : currentLen + para.length > maxChars ∧ current ≠ []
    · rw [if_pos h] at hg
      rcases List.mem_cons.mp hg with rfl | hg'
      · rcases hinv with h1 | h1 | h1
        · exact absurd h1 h.2
        · exact Or.inl h1
        · exact Or.inr (hsum ▸ h1)
      · exact ih [para] para.length (by simp) (Or.inr (Or.inl rfl)) g hg'
    · rw [if_neg h] at hg
      refine ih (current ++ [para]) (currentLen + para.length) (by simp [hsum]) ?_ g hg
      by_cases hc : current = []
      · subst hc
        exact Or.inr (Or.inl (by simp))
      · right; right
        rcases not_and_or.mp h with h1 | h1
        · omega
        · exact absurd hc (fun hcc => h1 hcc)

theorem pyJoin_length (sep : Str) : ∀ parts : List Str,
    (pyJoin sep parts).length =
      (parts.map List.length).sum + sep.length * (parts.length - 1) := by
  intro parts
  induction parts with
  | nil => simp [pyJoin]
  | cons x xs ih =>
    cases xs with
    | nil => simp [pyJoin]
    | cons y ys =>
      rw [pyJoin_cons_cons]
      simp only [List.length_append, List.map_cons, List.sum_cons, List.length_cons,
        Nat.add_sub_cancel] at *
      have hm : sep.length * (ys.length + 1) = sep.length * ys.length + sep.length :=
        Nat.mul_succ _ _
      omega

theorem pyJoin_append (sep : Str) {ps qs : List Str} (hp : ps ≠ []) (hq : qs ≠ []) :
    pyJoin sep (ps ++ qs) = pyJoin sep ps ++ sep ++ pyJoin sep qs := by
  induction ps with
  | nil => exact absurd rfl hp
  | cons p ps ih =>
    cases ps with
    | nil =>
      simp only [List.singleton_append]
      rw [pyJoin_cons_of_ne_nil sep p hq]
      rfl
    | cons p' ps' =>
      rw [List.cons_append, pyJoin_cons_cons]
      rw [List.cons_append] at ih ⊢
      rw [pyJoin_cons_cons, ih (by simp)]
      simp [List.append_assoc]

theorem pyJoin_map_pyJoin (sep : Str) : ∀ (gs : List (List Str)),
    (∀ g ∈ gs, g ≠ []) →
    pyJoin sep (gs.map (pyJoin sep)) = pyJoin sep gs.flatten := by
  intro gs
  induction gs with
  | nil => intro _; rfl
  | cons g gs ih =>
    intro hne
    cases gs with
    | nil => simp [pyJoin]
    | cons g' gs' =>
      have hgne : g ≠ [] := hne g (List.mem_cons_self _ _)
      have hfne : (g' :: gs').flatten ≠ [] := by
        have hg' : g' ≠ [] := hne g' (by simp)
        simp only [List.flatten_cons]
        intro hc
        exact hg' (List.append_eq_nil.mp hc).1
      rw [List.map_cons, pyJoin_cons_of_ne_nil sep _ (by simp),
        ih (fun x hx => hne x (List.mem_cons_of_mem _ hx)),
        show (g :: g' :: gs').flatten = g ++ (g' :: gs').flatten from rfl,
        pyJoin_append sep hgne hfne]

/- ===== review.py : clean_paper_text ===== -/

/-- Embeds `clean_paper_text` (review.py lines 190-215) with the remote call
`_clean_chunk(client, chunk, i + 1, len(chunks), title)` abstracted as the
function `cleanChunk chunk chunkNum totalChunks`.  The futures list preserves
submission order and `[f.result() for f in futures]` reads each future by
position, so the returned value is the index-ordered map below. -/
def clean_paper_text (cleanChunk : Str → Nat → Nat → Str) (rawText : Str) : Str :=
  let chunks := chunk_text rawText
  pyJoin nl2 (chunks.enum.map fun iu => cleanChunk iu.2 (iu.1 + 1) chunks.length)

/-- Variant of `clean_paper_text` in which the per-chunk remote call can raise:
`f.result()` re-raises the first failing future in list order, so the whole call
returns that error and produces no joined document. -/
def clean_paper_textE {ε : Type} (cleanChunk : Str → Nat → Nat → Except ε Str)
    (rawText : Str) : Except ε Str := do
  let chunks := chunk_text rawText
  let results ← chunks.enum.mapM fun iu => cleanChunk iu.2 (iu.1 + 1) chunks.length
  pure (pyJoin nl2 results)

/-- Execution of the chunk-cleaning fan-out under an explicit completion
schedule: workers finish in the order listed in `schedule`, each depositing the
pair (index, result) into the store of finished futures. -/
def runCleanSchedule (cleanChunk : Str → Nat → Nat → Str) (chunks : List Str)
    (schedule : List Nat) : List (Nat × Str) :=
  schedule.filterMap fun i =>
    (chunks.get? i).map fun c => (i, cleanChunk c (i + 1) chunks.length)

/-- Reading the results back in submission (index) order, as
`[f.result() for f in futures]` does: each future is keyed by its index,
independently of its position in the completion order. -/
def collectInOrder (store : List (Nat × Str)) (n : Nat) : Option (List Str) :=
  (List.range n).mapM fun i => ((store.find? fun e => e.1 == i).map Prod.snd)

/- ===== review.py : figure triage, rename, descriptions ===== -/

/-- Candidate image file, modelled as its pathlib stem and suffix (its file name
is `stem ++ suffix`); extraction and path handling are outside the core. -/
structure Image where
  stem : Str
  suffix : Str
deriving DecidableEq

/-- File name of an image. -/
def Image.name (img : Image) : Str := img.stem ++ img.suffix

instance : Inhabited Image := ⟨⟨[], []⟩⟩

/-- Outcome of the try/except around a classification future (review.py lines
290-300): `ok true` appends the candidate to `figure_paths`, `ok false` unlinks
its file, and an exception prints a warning and appends the candidate
(fail-open). -/
def keepVerdict {ε : Type} : Except ε Bool → Bool
  | .ok false => false
  | _ => true

/-- The `as_completed` classification loop: `schedule` lists candidate indices in
completion order; the result is `figure_paths` in append (completion) order. -/
def triageKept {ε : Type} (classify : Image → Except ε Bool) (all_images : List Image)
    (schedule : List Nat) : List Image :=
  schedule.filterMap fun idx =>
    (all_images.get? idx).bind fun img =>
      if keepVerdict (classify img) then some img else none

/-- Files unlinked during the classification loop (candidates whose verdict is
affirmatively "artifact"). -/
def triageDeleted {ε : Type} (classify : Image → Except ε Bool) (all_images : List Image)
    (schedule : List Nat) : List Image :=
  schedule.filterMap fun idx =>
    (all_images.get? idx).bind fun img =>
      if keepVerdict (classify img) then none else some img

/-- The stable sort `figure_paths.sort(key=lambda p: all_images.index(p))`
(review.py line 303). -/
def sortByDiscovery (all_images figs : List Image) : List Image :=
  figs.insertionSort fun a b => List.indexOf a all_images ≤ List.indexOf b all_images

/-- Decimal numeral as a model string. -/
def natStr (n : Nat) : Str := (Nat.repr n).data

/-- The rename loop (review.py lines 304-311): the i-th surviving figure,
1-based, becomes `figure_<i><suffix>`. -/
def renameFigures (figs : List Image) : List Image :=
  figs.enum.map fun ji => { stem := str "figure_" ++ natStr (ji.1 + 1), suffix := ji.2.suffix }

/-- Whole triage phase: classify all candidates (completion order `schedule`),
sort survivors by discovery order, then rename them; the rename loop runs only
after the `as_completed` loop has drained every classification future. -/
def triageFigures {ε : Type} (classify : Image → Except ε Bool) (all_images : List Image)
    (schedule : List Nat) : List Image :=
  renameFigures (sortByDiscovery all_images (triageKept classify all_images schedule))

/-- The `as_completed` description loop (review.py lines 318-329): the dict
`result["figure_descriptions"]` is modelled as the association list of
(key, description) pairs in insertion = completion order; `describe i fig`
abstracts `describe_figure(fig_path, i, title)`, and an exception stores the
placeholder `[Figure {i}]` instead. -/
def buildDescriptions {ε : Type} (describe : Nat → Image → Except ε Str)
    (figure_paths : List Image) (schedule : List Nat) : List (Str × Str) :=
  schedule.filterMap fun j =>
    match figure_paths.get? j with
    | none => none
    | some fig =>
      let i := j + 1
      let key := str "figure_" ++ natStr i
      match describe i fig with
      | .ok d => some (key, d)
      | .error _ => some (key, str "[Figure " ++ natStr i ++ str "]")

/-- The figures section built by `_insert_figure_descriptions` (review.py lines
357-370): the dict is iterated in insertion order, and `enumerate(..., 1)`
supplies the figure number `i` used for the heading and the image reference. -/
def figures_section (descriptions : List (Str × Str)) (figure_paths : List Image) : Str :=
  str "\n\n## Figures\n\n" ++
    (descriptions.enum.map fun kd =>
      let i := kd.1 + 1
      let desc := kd.2.2
      if figure_paths ≠ [] ∧ i ≤ figure_paths.length then
        let relPath := str "img/" ++ (figure_paths.getD (i - 1) default).name
        str "### Figure " ++ natStr i ++ str "\n\n" ++
          str "![Figure " ++ natStr i ++ str "](" ++ relPath ++ str ")\n\n" ++
          str "**Description:** " ++ desc ++ str "\n\n"
      else
        str "### Figure " ++ natStr i ++ str "\n\n" ++
          str "**Description:** " ++ desc ++ str "\n\n").flatten

/-- Embeds `_insert_figure_descriptions` (review.py lines 349-378): insert the
figures section before the References heading via `str.replace` when the heading
occurs, else append it. -/
def insert_figure_descriptions (markdown : Str) (descriptions : List (Str × Str))
    (figure_paths : List Image) : Str :=
  let figuresSection := figures_section descriptions figure_paths
  if pyContains (str "## References") markdown then
    pyReplace (str "## References") (figuresSection ++ str "## References") markdown
  else
    markdown ++ figuresSection

/-- Result of a successful `process_paper` run, restricted to the document
artifact and the filesystem effects the claims are about. -/
structure PaperResult where
  markdown : Str
  figures : List Image
  deleted : List Image
  descriptions : List (Str × Str)
deriving DecidableEq

/-- Embeds the document-producing behaviour of `process_paper` (review.py lines
218-346) with both feature flags true: triage and rename the candidates
(classification completion order `classSchedule`), build the descriptions
(completion order `descSchedule`), await the text-cleaning future (which
re-raises any chunk failure), merge, then write `paper.md`; an `.error` result
means the run raised before `md_path.write_text`, so no document is written. -/
def process_paper {ε : Type} (cleanChunk : Str → Nat → Nat → Except ε Str)
    (classify : Image → Except ε Bool) (describe : Nat → Image → Except ε Str)
    (rawText : Str) (all_images : List Image)
    (classSchedule descSchedule : List Nat) : Except ε PaperResult := do
  let figure_paths := triageFigures classify all_images classSchedule
  let descriptions := buildDescriptions describe figure_paths descSchedule
  let clean_text ← clean_paper_textE cleanChunk rawText
  let md :=
    if descriptions.isEmpty then clean_text
    else insert_figure_descriptions clean_text descriptions figure_paths
  pure { markdown := md, figures := figure_paths,
         deleted := triageDeleted classify all_images classSchedule,
         descriptions := descriptions }

/- ===== tts.py ===== -/

/-- Kokoro sample rate (tts.py line 15). -/
def SAMPLE_RATE : Nat := 24000

/-- The 0.4-second silence buffer `np.zeros(int(SAMPLE_RATE * 0.4))`.  The
assembly code performs no arithmetic on samples, so float samples are modelled
by an opaque numeric carrier (`Int`), zeros by `0`. -/
def pauseAudio : List Int := List.replicate (SAMPLE_RATE * 4 / 10) 0

/-- The assembly loop shared by `generate_audio` (tts.py lines 208-217) and
`create_podcast` (tts.py lines 329-335): each non-empty segment is appended
followed by the pause; empty segments are skipped. -/
def collectAudio : List (List Int) → List (List Int)
  | [] => []
  | seg :: rest =>
    if seg.length > 0 then seg :: pauseAudio :: collectAudio rest
    else collectAudio rest

/-- The guard `if not audio_segments: raise ValueError("No audio was generated")`
followed by `np.concatenate(audio_segments)`. -/
def combineAudio (segments : List (List Int)) : Except Str (List Int) :=
  let audio_segments := collectAudio segments
  if audio_segments.isEmpty then .error (str "No audio was generated")
  else .ok audio_segments.flatten

/-- Fuel-indexed worker for `drainBuffer`. -/
def drainBufferF : Nat → Str → List Str × Str
  | 0, buffer => ([], buffer)
  | fuel + 1, buffer =>
    match findSplit nl2 buffer with
    | none => ([], buffer)
    | some (para, rest) =>
      let p := pyStrip para
      let pr := drainBufferF fuel rest
      (if p ≠ [] then p :: pr.1 else pr.1, pr.2)

/-- The `while "\n\n" in buffer` loop of `create_podcast` (tts.py lines 310-314):
split off complete paragraphs with `buffer.split("\n\n", 1)`, strip them, submit
the non-empty ones; returns (submitted paragraphs, remaining buffer). -/
def drainBuffer (buffer : Str) : List Str × Str := drainBufferF (buffer.length + 1) buffer

/-- The `for chunk in stream.text_stream` loop: each delta is appended to the
buffer, then complete paragraphs are drained. -/
def processDeltas : List Str → Str → List Str × Str
  | [], buffer => ([], buffer)
  | d :: ds, buffer =>
    let pr := drainBuffer (buffer ++ d)
    let qr := processDeltas ds pr.2
    (pr.1 ++ qr.1, qr.2)

/-- Paragraphs submitted to synthesis by `create_podcast` for a given stream of
text deltas, including the final flush of the remaining stripped buffer
(tts.py lines 307-318). -/
def streamedParagraphs (deltas : List Str) : List Str :=
  let pr := processDeltas deltas []
  pr.1 ++ (if pyStrip pr.2 ≠ [] then [pyStrip pr.2] else [])

/- ===== Claim C10 ===== -/

/-- C10: chunking is lossless — joining the units returned by `_chunk_text` with a
blank line yields exactly the original input text, for every input and threshold. -/
theorem C10_chunking_lossless (text : Str) (maxChars : Nat) :
    pyJoin nl2 (chunk_text text maxChars) = text := by
  rw [chunk_text, chunkAux_eq_map,
    pyJoin_map_pyJoin nl2 _ (fun g hg => chunkGroups_ne_nil maxChars (splitParagraphs text) [] 0 g hg),
    chunkGroups_flatten]
  simpa [splitParagraphs] using pyJoin_pySplitOn nl2 (by simp [nl2]) text

/- ===== Claim C6 ===== -/

/-- Paragraph of 6000 identical characters, used to exhibit an oversized unit. -/
def bigPara : Str := List.replicate 6000 'a'

theorem findSplit_nl2_replicate (n : Nat) : findSplit nl2 (List.replicate n 'a') = none := by
  induction n with
  | zero => rfl
  | succ n ih =>
    rw [List.replicate_succ, findSplit, if_neg (by simp [nl2, List.isPrefixOf]), ih]
    rfl

theorem findSplit_nl2_replicate_append (n : Nat) (t : Str) :
    findSplit nl2 (List.replicate n 'a' ++ '\n' :: '\n' :: t) = some (List.replicate n 'a', t) := by
  induction n with
  | zero =>
    show findSplit nl2 ('\n' :: '\n' :: t) = some ([], t)
    rw [findSplit, if_pos (by simp [nl2, List.isPrefixOf])]
    simp [nl2]
  | succ n ih =>
    rw [List.replicate_succ, List.cons_append, findSplit,
      if_neg (by simp [nl2, List.isPrefixOf]), ih]
    rfl

theorem findSplit_bigPara : findSplit nl2 bigPara = none := findSplit_nl2_replicate 6000

theorem bigPara_length : bigPara.length = 6000 := List.length_replicate 6000 'a'

theorem splitParagraphs_bigPara :
    splitParagraphs (bigPara ++ nl2 ++ bigPara) = [bigPara, bigPara] := by
  have h1 : findSplit nl2 (bigPara ++ nl2 ++ bigPara) = some (bigPara, bigPara) := by
    rw [List.append_assoc]
    exact findSplit_nl2_replicate_append 6000 bigPara
  rw [splitParagraphs, pySplitOn_eq, h1]
  show bigPara :: pySplitOn nl2 bigPara = [bigPara, bigPara]
  rw [pySplitOn_eq, findSplit_bigPara]

/-- C6 counterexample: with the source's threshold of 12000 characters, two
6000-character paragraphs are packed into a single unit of length 12002 — the
separators are not counted by the loop — so a unit that is not a single
oversized paragraph exceeds the threshold. -/
theorem C6_counterexample :
    chunk_text (bigPara ++ nl2 ++ bigPara) 12000 = [bigPara ++ nl2 ++ bigPara] ∧
    (bigPara ++ nl2 ++ bigPara).length = 12002 ∧
    splitParagraphs (bigPara ++ nl2 ++ bigPara) = [bigPara, bigPara] ∧
    ¬ ((bigPara ++ nl2 ++ bigPara).length < 12000 ∨
        (splitParagraphs (bigPara ++ nl2 ++ bigPara)).length = 1) := by
  have hlen : (bigPara ++ nl2 ++ bigPara).length = 12002 := by
    rw [List.length_append, List.length_append, bigPara_length,
      show nl2.length = 2 from rfl]
  refine ⟨?_, hlen, splitParagraphs_bigPara, ?_⟩
  · rw [chunk_text, splitParagraphs_bigPara, chunkAux, if_neg (by simp), chunkAux,
      if_neg (by simp [bigPara_length]), chunkAux, if_neg (by simp)]
    rfl
  · rw [splitParagraphs_bigPara, hlen]
    simp

/-- C6 (amended): `_chunk_text` packs whole consecutive paragraphs, never
splitting one; every unit is the blank-line join of a nonempty paragraph group
which is either a single (possibly oversized) paragraph or has paragraph-length
sum at most the threshold, so the unit's full length is at most the threshold
plus two characters per separator. -/
theorem C6_chunk_size (text : Str) (maxChars : Nat) (chunk : Str)
    (hc : chunk ∈ chunk_text text maxChars) :
    ∃ g ∈ chunkGroups maxChars (splitParagraphs text) [] 0,
      chunk = pyJoin nl2 g ∧ g ≠ [] ∧
      (g.length = 1 ∨
        ((g.map List.length).sum ≤ maxChars ∧
          chunk.length ≤ maxChars + 2 * (g.length - 1))) := by
  rw [chunk_text, chunkAux_eq_map] at hc
  rcases List.mem_map.mp hc with ⟨g, hg, rfl⟩
  refine ⟨g, hg, rfl, chunkGroups_ne_nil maxChars (splitParagraphs text) [] 0 g hg, ?_⟩
  rcases chunkGroups_size maxChars (splitParagraphs text) [] 0 rfl (Or.inl rfl) g hg with h1 | h1
  · exact Or.inl h1
  · refine Or.inr ⟨h1, ?_⟩
    rw [pyJoin_length nl2 g, show nl2.length = 2 from rfl]
    omega

/-- Witness for C6 (amended) at a concrete input: the first unit of chunking
"ab\n\ncd" with threshold 3. -/
theorem C6_chunk_size_witness :
    str "ab" ∈ chunk_text (str "ab\n\ncd") 3 ∧
    (∃ g ∈ chunkGroups 3 (splitParagraphs (str "ab\n\ncd")) [] 0,
      str "ab" = pyJoin nl2 g ∧ g ≠ [] ∧
      (g.length = 1 ∨
        ((g.map List.length).sum ≤ 3 ∧
          (str "ab").length ≤ 3 + 2 * (g.length - 1)))) :=
  ⟨by decide, C6_chunk_size (str "ab\n\ncd") 3 (str "ab") (by decide)⟩

/- ===== Claim C5 ===== -/

theorem collectAudio_flatten (segments : List (List Int)) :
    (collectAudio segments).flatten =
      (segments.filter fun s => !s.isEmpty).flatMap fun s => s ++ pauseAudio := by
  induction segments with
  | nil => rfl
  | cons seg rest ih =>
    rw [collectAudio, List.filter_cons]
    by_cases h : seg = []
    · subst h
      simp [ih]
    · have hpos : seg.length > 0 := List.length_pos.mpr h
      rw [if_pos hpos, if_pos (by simpa [List.isEmpty_eq_false] using h)]
      simp [ih, List.append_assoc]

theorem collectAudio_ne_nil {segments : List (List Int)} (h : ∃ s ∈ segments, s ≠ []) :
    collectAudio segments ≠ [] := by
  induction segments with
  | nil => simp at h
  | cons seg rest ih =>
    rw [collectAudio]
    by_cases hs : seg = []
    · subst hs
      rw [if_neg (by simp)]
      rcases h with ⟨s, hmem, hne⟩
      rcases List.mem_cons.mp hmem with rfl | hmem'
      · exact absurd rfl hne
      · exact ih ⟨s, hmem', hne⟩
    · rw [if_pos (List.length_pos.mpr hs)]
      simp

/-- C5: the combined audio equals the concatenation, in paragraph order, of every
non-empty synthesized segment each followed by exactly one silence buffer of
0.4 seconds at the 24000 Hz sample rate; a zero-length segment contributes no
audio and no silence and does not make the run fail. -/
theorem C5_audio_assembly (segments : List (List Int))
    (h : ∃ s ∈ segments, s ≠ []) :
    pauseAudio.length = SAMPLE_RATE * 4 / 10 ∧ SAMPLE_RATE = 24000 ∧
    combineAudio segments =
      .ok ((segments.filter fun s => !s.isEmpty).flatMap fun s => s ++ pauseAudio) := by
  refine ⟨by simp [pauseAudio], rfl, ?_⟩
  rw [combineAudio]
  rw [if_neg (by simpa [List.isEmpty_eq_false] using collectAudio_ne_nil h)]
  rw [collectAudio_flatten]

/-- Witness for C5 at a concrete input: three segments of which the middle one is
empty. -/
theorem C5_audio_assembly_witness :
    (∃ s ∈ ([[1], [], [2]] : List (List Int)), s ≠ []) ∧
    combineAudio [[1], [], [2]] =
      .ok ((([[1], [], [2]] : List (List Int)).filter fun s => !s.isEmpty).flatMap
        fun s => s ++ pauseAudio) :=
  ⟨⟨[1], by simp⟩, (C5_audio_assembly [[1], [], [2]] ⟨[1], by simp⟩).2.2⟩

/- ===== Claim C9 ===== -/

theorem drainBufferF_congr : ∀ {f1 f2 : Nat} {b : Str}, b.length ≤ f1 → b.length ≤ f2 →
    drainBufferF f1 b = drainBufferF f2 b := by
  intro f1
  induction f1 with
  | zero =>
    intro f2 b h1 h2
    have hb : b = [] := List.length_eq_zero.mp (Nat.le_zero.mp h1)
    subst hb
    cases f2 with
    | zero => rfl
    | succ f2 => rfl
  | succ f1 ih =>
    intro f2 b h1 h2
    cases f2 with
    | zero =>
      have hb : b = [] := List.length_eq_zero.mp (Nat.le_zero.mp h2)
      subst hb
      rfl
    | succ f2 =>
      rw [drainBufferF, drainBufferF]
      cases hfs : findSplit nl2 b with
      | none => rfl
      | some pr =>
        obtain ⟨para, rest⟩ := pr
        have hlt : rest.length < b.length := findSplit_length hfs
        have heq : drainBufferF f1 rest = drainBufferF f2 rest := ih (by omega) (by omega)
        show (if pyStrip para ≠ [] then pyStrip para :: (drainBufferF f1 rest).1
              else (drainBufferF f1 rest).1, (drainBufferF f1 rest).2) =
            (if pyStrip para ≠ [] then pyStrip para :: (drainBufferF f2 rest).1
              else (drainBufferF f2 rest).1, (drainBufferF f2 rest).2)
        rw [heq]

/-- Unfolding equation for `drainBuffer`, mirroring one iteration of the
`while "\n\n" in buffer` loop. -/
theorem drainBuffer_eq (b : Str) :
    drainBuffer b =
      match findSplit nl2 b with
      | none => ([], b)
      | some (para, rest) =>
        (if pyStrip para ≠ [] then pyStrip para :: (drainBuffer rest).1
          else (drainBuffer rest).1, (drainBuffer rest).2) := by
  rw [show drainBuffer b = drainBufferF (b.length + 1) b from rfl, drainBufferF]
  cases hfs : findSplit nl2 b with
  | none => rfl
  | some pr =>
    obtain ⟨para, rest⟩ := pr
    have hlt : rest.length < b.length := findSplit_length hfs
    show (if pyStrip para ≠ [] then pyStrip para :: (drainBufferF b.length rest).1
          else (drainBufferF b.length rest).1, (drainBufferF b.length rest).2) = _
    rw [show drainBufferF b.length rest = drainBuffer rest from
      drainBufferF_congr (by omega) (Nat.le_succ _)]

theorem drainBuffer_rem : ∀ (n : Nat) (b : Str), b.length ≤ n →
    findSplit nl2 (drainBuffer b).2 = none := by
  intro n
  induction n with
  | zero =>
    intro b hb
    have hbe : b = [] := List.length_eq_zero.mp (Nat.le_zero.mp hb)
    subst hbe
    rfl
  | succ n ih =>
    intro b hb
    rw [drainBuffer_eq]
    cases hfs : findSplit nl2 b with
    | none => exact hfs
    | some pr =>
      obtain ⟨para, rest⟩ := pr
      have hlt : rest.length < b.length := findSplit_length hfs
      show findSplit nl2 (drainBuffer rest).2 = none
      exact ih rest (by omega)

/-- Draining the concatenation of two texts factors through draining the first
text and then its remainder extended by the second. -/
theorem drainBuffer_append : ∀ (n : Nat) (b : Str), b.length ≤ n →
    ∀ (d : Str) (ps1 : List Str) (r1 : Str),
      drainBuffer b = (ps1, r1) →
      drainBuffer (b ++ d) =
        (ps1 ++ (drainBuffer (r1 ++ d)).1, (drainBuffer (r1 ++ d)).2) := by
  intro n
  induction n with
  | zero =>
    intro b hb d ps1 r1 h
    have hbe : b = [] := List.length_eq_zero.mp (Nat.le_zero.mp hb)
    subst hbe
    rw [show drainBuffer ([] : Str) = ([], []) from rfl] at h
    injection h with h1 h2
    subst h1
    subst h2
    simp
  | succ n ih =>
    intro b hb d ps1 r1 h
    cases hfs : findSplit nl2 b with
    | none =>
      rw [drainBuffer_eq, hfs] at h
      injection h with h1 h2
      subst h1
      subst h2
      simp
    | some pr =>
      obtain ⟨para, rest⟩ := pr
      have hlt : rest.length < b.length := findSplit_length hfs
      rw [drainBuffer_eq, hfs] at h
      have h2 : findSplit nl2 (b ++ d) = some (para, rest ++ d) :=
        findSplit_append (by simp [nl2]) d hfs
      have hrec := ih rest (by omega) d (drainBuffer rest).1 (drainBuffer rest).2 rfl
      injection h with hps hr
      subst hps
      subst hr
      rw [drainBuffer_eq (b ++ d), h2]
      show (if pyStrip para ≠ [] then pyStrip para :: (drainBuffer (rest ++ d)).1
            else (drainBuffer (rest ++ d)).1, (drainBuffer (rest ++ d)).2) = _
      rw [hrec]
      by_cases hstrip : pyStrip para ≠ [] <;> simp [hstrip]

theorem processDeltas_eq_drain : ∀ (ds : List Str) (b : Str), findSplit nl2 b = none →
    processDeltas ds b = drainBuffer (b ++ ds.flatten) := by
  intro ds
  induction ds with
  | nil =>
    intro b hb
    rw [processDeltas, List.flatten_nil, List.append_nil, drainBuffer_eq, hb]
  | cons d ds ih =>
    intro b hb
    rw [processDeltas]
    show ((drainBuffer (b ++ d)).1 ++ (processDeltas ds (drainBuffer (b ++ d)).2).1,
          (processDeltas ds (drainBuffer (b ++ d)).2).2) = drainBuffer (b ++ (d :: ds).flatten)
    rw [ih _ (drainBuffer_rem (b ++ d).length (b ++ d) (Nat.le_refl _))]
    have happ := drainBuffer_append (b ++ d).length (b ++ d) (Nat.le_refl _) ds.flatten
      (drainBuffer (b ++ d)).1 (drainBuffer (b ++ d)).2 rfl
    rw [List.flatten_cons, ← List.append_assoc, happ]

/-- Draining a whole text emits the stripped non-empty components before the last
split part and leaves the last part as the remaining buffer. -/
theorem drainBuffer_split : ∀ (n : Nat) (b : Str), b.length ≤ n →
    ∃ ps : List Str, pySplitOn nl2 b = ps ++ [(drainBuffer b).2] ∧
      (drainBuffer b).1 = (ps.map pyStrip).filter (fun s => !s.isEmpty) := by
  intro n
  induction n with
  | zero =>
    intro b hb
    have hbe : b = [] := List.length_eq_zero.mp (Nat.le_zero.mp hb)
    subst hbe
    exact ⟨[], by rw [pySplitOn_eq]; rfl, rfl⟩
  | succ n ih =>
    intro b hb
    cases hfs : findSplit nl2 b with
    | none =>
      refine ⟨[], ?_, ?_⟩
      · rw [pySplitOn_eq, hfs, drainBuffer_eq, hfs]
        rfl
      · rw [drainBuffer_eq, hfs]
        rfl
    | some pr =>
      obtain ⟨para, rest⟩ := pr
      have hlt : rest.length < b.length := findSplit_length hfs
      obtain ⟨ps', h1, h2⟩ := ih rest (by omega)
      have hb1 : (drainBuffer b).1 =
          (if pyStrip para ≠ [] then pyStrip para :: (drainBuffer rest).1
            else (drainBuffer rest).1) := by
        rw [drainBuffer_eq, hfs]
      have hb2 : (drainBuffer b).2 = (drainBuffer rest).2 := by
        rw [drainBuffer_eq, hfs]
      refine ⟨para :: ps', ?_, ?_⟩
      · rw [pySplitOn_eq, hfs]
        show para :: pySplitOn nl2 rest = (para :: ps') ++ [(drainBuffer b).2]
        rw [h1, hb2]
        rfl
      · rw [hb1, List.map_cons, List.filter_cons, h2]
        by_cases hstrip : pyStrip para = [] <;> simp [hstrip, List.isEmpty_iff]

/-- C9: the sequence of paragraphs submitted to synthesis by `create_podcast`
(and joined with blank lines to form the saved script) depends only on the
concatenation of the stream deltas, not on how the text is divided into deltas:
it equals the non-empty whitespace-stripped components of the full concatenated
text split on blank lines, in order. -/
theorem C9_streaming_delta_invariance (deltas : List Str) :
    streamedParagraphs deltas =
      ((pySplitOn nl2 deltas.flatten).map pyStrip).filter (fun s => !s.isEmpty) := by
  rw [streamedParagraphs]
  show (processDeltas deltas []).1 ++
      (if pyStrip (processDeltas deltas []).2 ≠ []
        then [pyStrip (processDeltas deltas []).2] else []) = _
  rw [processDeltas_eq_drain deltas [] rfl, List.nil_append]
  obtain ⟨ps, h1, h2⟩ :=
    drainBuffer_split (deltas.flatten).length deltas.flatten (Nat.le_refl _)
  rw [h1, h2, List.map_append, List.filter_append]
  congr 1
  by_cases hstrip : pyStrip (drainBuffer deltas.flatten).2 = [] <;>
    simp [hstrip, List.isEmpty_iff]

/- ===== Claim C2 ===== -/

theorem find?_runCleanSchedule (cleanChunk : Str → Nat → Nat → Str) (chunks : List Str) :
    ∀ (schedule : List Nat) (i : Nat) (c : Str), i ∈ schedule → chunks.get? i = some c →
      (runCleanSchedule cleanChunk chunks schedule).find? (fun e => e.1 == i) =
        some (i, cleanChunk c (i + 1) chunks.length) := by
  intro schedule
  induction schedule with
  | nil =>
    intro i c hi _
    simp at hi
  | cons j sch ih =>
    intro i c hi hc
    rw [runCleanSchedule, List.filterMap_cons]
    cases hj : chunks.get? j with
    | none =>
      show (runCleanSchedule cleanChunk chunks sch).find? (fun e => e.1 == i) = _
      rcases List.mem_cons.mp hi with rfl | hi'
      · rw [hj] at hc
        exact absurd hc (by simp)
      · exact ih i c hi' hc
    | some cj =>
      show List.find? (fun e => e.1 == i)
          ((j, cleanChunk cj (j + 1) chunks.length) :: runCleanSchedule cleanChunk chunks sch) = _
      rw [List.find?_cons]
      by_cases hij : j = i
      · subst hij
        rw [hj] at hc
        injection hc with hcj
        subst hcj
        simp
      · have hne : ((j, cleanChunk cj (j + 1) chunks.length).1 == i) = false := by
          simpa using hij
        rw [hne]
        rcases List.mem_cons.mp hi with heq | hi'
        · exact absurd heq.symm hij
        · exact ih i c hi' hc

theorem mapM_option_eq_some {α β : Type} (f : α → Option β) (g : α → β) :
    ∀ (l : List α), (∀ a ∈ l, f a = some (g a)) → l.mapM f = some (l.map g) := by
  intro l
  induction l with
  | nil => intro _; rfl
  | cons a l ih =>
    intro h
    rw [List.mapM_cons, h a (List.mem_cons_self a l), ih (fun x hx => h x (List.mem_cons_of_mem a hx))]
    rfl

/-- C2: under any completion order of the per-chunk cleaning workers that is a
permutation of the chunk indices, collecting the futures in submission order
yields exactly the index-ordered results — result i corresponds to chunk i —
and joining them with blank lines gives the sequential `clean_paper_text`
baseline. -/
theorem C2_cleaning_order_independence (cleanChunk : Str → Nat → Nat → Str) (rawText : Str)
    (schedule : List Nat)
    (hperm : schedule.Perm (List.range (chunk_text rawText).length)) :
    collectInOrder (runCleanSchedule cleanChunk (chunk_text rawText) schedule)
        (chunk_text rawText).length =
      some ((chunk_text rawText).enum.map fun iu =>
        cleanChunk iu.2 (iu.1 + 1) (chunk_text rawText).length) ∧
    Option.map (pyJoin nl2)
      (collectInOrder (runCleanSchedule cleanChunk (chunk_text rawText) schedule)
        (chunk_text rawText).length) = some (clean_paper_text cleanChunk rawText) := by
  have hmain : collectInOrder (runCleanSchedule cleanChunk (chunk_text rawText) schedule)
      (chunk_text rawText).length =
      some ((List.range (chunk_text rawText).length).map
        fun i => cleanChunk ((chunk_text rawText).getD i []) (i + 1) (chunk_text rawText).length) := by
    rw [collectInOrder]
    apply mapM_option_eq_some
    intro i hi
    have hilt : i < (chunk_text rawText).length := List.mem_range.mp hi
    obtain ⟨c, hc⟩ : ∃ c, (chunk_text rawText).get? i = some c :=
      ⟨_, List.get?_eq_get hilt⟩
    rw [find?_runCleanSchedule cleanChunk (chunk_text rawText) schedule i c
      (hperm.mem_iff.mpr hi) hc, Option.map_some', List.getD_eq_get?, hc]
    rfl
  have hlist : ((List.range (chunk_text rawText).length).map
      fun i => cleanChunk ((chunk_text rawText).getD i []) (i + 1) (chunk_text rawText).length) =
      (chunk_text rawText).enum.map fun iu =>
        cleanChunk iu.2 (iu.1 + 1) (chunk_text rawText).length := by
    apply List.ext_getElem
    · simp [List.enum_length]
    · intro n h1 h2
      rw [List.getElem_map, List.getElem_map, List.getElem_range, List.getElem_enum]
      have hn : n < (chunk_text rawText).length := by simpa using h2
      rw [List.getD_eq_get?, List.get?_eq_get hn]
      rfl
  refine ⟨hmain.trans (congrArg some hlist), ?_⟩
  rw [hmain.trans (congrArg some hlist), Option.map_some']
  rfl

/-- Witness for C2 at a concrete input: a single chunk collected under the only
possible schedule. -/
theorem C2_cleaning_order_independence_witness :
    (([0] : List Nat).Perm (List.range (chunk_text (str "hi")).length)) ∧
    collectInOrder (runCleanSchedule (fun c _ _ => c) (chunk_text (str "hi")) [0])
        (chunk_text (str "hi")).length =
      some ((chunk_text (str "hi")).enum.map fun iu =>
        (fun (c : Str) (_ _ : Nat) => c) iu.2 (iu.1 + 1) (chunk_text (str "hi")).length) :=
  ⟨by decide, (C2_cleaning_order_independence (fun c _ _ => c) (str "hi") [0] (by decide)).1⟩

/- ===== Claim C4 ===== -/

theorem mapM_except_error {ε α β : Type} (f : α → Except ε β) :
    ∀ (l : List α) (i : Nat) (a : α) (e : ε),
      l.get? i = some a → f a = .error e →
      (∀ (j : Nat) (b : α), j < i → l.get? j = some b → ∃ y, f b = .ok y) →
      l.mapM f = .error e := by
  intro l
  induction l with
  | nil =>
    intro i a e h
    simp at h
  | cons x l ih =>
    intro i a e hget herr hok
    cases i with
    | zero =>
      rw [List.get?_cons_zero] at hget
      injection hget with hxa
      subst hxa
      rw [List.mapM_cons, herr]
      rfl
    | succ i =>
      rw [List.get?_cons_succ] at hget
      obtain ⟨y, hy⟩ := hok 0 x (Nat.succ_pos i) List.get?_cons_zero
      rw [List.mapM_cons, hy,
        ih i a e hget herr (fun j b hj hb => hok (j + 1) b (by omega) (by simpa using hb))]
      rfl

theorem mapM_except_error_exists {ε α β : Type} (f : α → Except ε β) :
    ∀ (l : List α) (i : Nat) (a : α) (e : ε),
      l.get? i = some a → f a = .error e →
      ∃ e', l.mapM f = .error e' := by
  intro l
  induction l with
  | nil =>
    intro i a e h
    simp at h
  | cons x l ih =>
    intro i a e hget herr
    cases hfx : f x with
    | error e0 =>
      exact ⟨e0, by rw [List.mapM_cons, hfx]; rfl⟩
    | ok y =>
      cases i with
      | zero =>
        rw [List.get?_cons_zero] at hget
        injection hget with h1
        subst h1
        rw [hfx] at herr
        exact absurd herr (by simp)
      | succ i =>
        rw [List.get?_cons_succ] at hget
        obtain ⟨e', he'⟩ := ih i a e hget herr
        exact ⟨e', by rw [List.mapM_cons, hfx, he']; rfl⟩

/-- C4: if the cleaning call of any chunk raises, the whole cleaning operation
aborts with an error — `clean_paper_text` returns no partial or degraded
document and `process_paper` fails before writing `paper.md` — and when every
earlier chunk's call succeeds (so this is the first failure the result loop
observes) the error raised is exactly the chunk's own error. -/
theorem C4_fail_fast {ε : Type} (cleanChunk : Str → Nat → Nat → Except ε Str)
    (classify : Image → Except ε Bool) (describe : Nat → Image → Except ε Str)
    (rawText : Str) (all_images : List Image) (classSchedule descSchedule : List Nat)
    (i : Nat) (c : Str) (e : ε)
    (hget : (chunk_text rawText).get? i = some c)
    (herr : cleanChunk c (i + 1) (chunk_text rawText).length = .error e) :
    (∃ e', clean_paper_textE cleanChunk rawText = .error e') ∧
    (∃ e', process_paper cleanChunk classify describe rawText all_images classSchedule
      descSchedule = .error e') ∧
    ((∀ (j : Nat) (c' : Str), j < i → (chunk_text rawText).get? j = some c' →
        ∃ s, cleanChunk c' (j + 1) (chunk_text rawText).length = .ok s) →
      clean_paper_textE cleanChunk rawText = .error e ∧
      process_paper cleanChunk classify describe rawText all_images classSchedule
        descSchedule = .error e) := by
  have hget2 : (chunk_text rawText).enum.get? i = some (i, c) := by
    rw [List.enum_get?, hget]
    rfl
  obtain ⟨e', he'⟩ := mapM_except_error_exists
    (fun iu => cleanChunk iu.2 (iu.1 + 1) (chunk_text rawText).length)
    (chunk_text rawText).enum i (i, c) e hget2 herr
  have hany1 : clean_paper_textE cleanChunk rawText = .error e' := by
    rw [clean_paper_textE, he']
    rfl
  have hany2 : process_paper cleanChunk classify describe rawText all_images classSchedule
      descSchedule = .error e' := by
    rw [process_paper, hany1]
    rfl
  refine ⟨⟨e', hany1⟩, ⟨e', hany2⟩, ?_⟩
  intro hok
  have hmapM : (chunk_text rawText).enum.mapM
      (fun iu => cleanChunk iu.2 (iu.1 + 1) (chunk_text rawText).length) = .error e := by
    apply mapM_except_error _ _ i (i, c) e hget2 herr
    intro j b hj hb
    rw [List.enum_get?] at hb
    cases hcj : (chunk_text rawText).get? j with
    | none =>
      rw [hcj] at hb
      exact absurd hb (by simp)
    | some c' =>
      rw [hcj] at hb
      injection hb with hb'
      subst hb'
      exact hok j c' hj hcj
  have h1 : clean_paper_textE cleanChunk rawText = .error e := by
    rw [clean_paper_textE, hmapM]
    rfl
  refine ⟨h1, ?_⟩
  rw [process_paper, h1]
  rfl

/-- Witness for C4 at a concrete input: a one-chunk text whose cleaning call
fails with error 7. -/
theorem C4_fail_fast_witness :
    ((chunk_text (str "hi")).get? 0 = some (str "hi")) ∧
    clean_paper_textE (fun _ _ _ => (.error 7 : Except Nat Str)) (str "hi") = .error 7 ∧
    process_paper (fun _ _ _ => (.error 7 : Except Nat Str)) (fun _ => .ok true)
      (fun _ _ => .ok []) (str "hi") [] [] [] = .error 7 := by
  refine ⟨by decide, ?_, ?_⟩
  · exact ((C4_fail_fast (fun _ _ _ => (.error 7 : Except Nat Str)) (fun _ => .ok true)
      (fun _ _ => .ok []) (str "hi") [] [] [] 0 (str "hi") 7 (by decide) rfl).2.2
      (fun j c' hj _ => absurd hj (Nat.not_lt_zero j))).1
  · exact ((C4_fail_fast (fun _ _ _ => (.error 7 : Except Nat Str)) (fun _ => .ok true)
      (fun _ _ => .ok []) (str "hi") [] [] [] 0 (str "hi") 7 (by decide) rfl).2.2
      (fun j c' hj _ => absurd hj (Nat.not_lt_zero j))).2

/- ===== Claim C3 ===== -/

theorem filterMap_range_get {α β : Type} (l : List α) (g : α → Option β) :
    ((List.range l.length).filterMap fun i => (l.get? i).bind g) = l.filterMap g := by
  induction l with
  | nil => rfl
  | cons a l ih =>
    rw [List.length_cons, List.range_succ_eq_map, List.filterMap_cons, List.filterMap_map]
    have hcomp : ((fun i => ((a :: l).get? i).bind g) ∘ Nat.succ) =
        fun i => (l.get? i).bind g := by
      funext i
      simp [Function.comp, List.get?_cons_succ]
    rw [hcomp, ih, List.filterMap_cons]
    rfl

theorem filterMap_guard {α : Type} (p : α → Bool) (l : List α) :
    (l.filterMap fun a => if p a then some a else none) = l.filter p := by
  induction l with
  | nil => rfl
  | cons a l ih =>
    rw [List.filterMap_cons, List.filter_cons]
    cases hp : p a <;> simp [hp, ih]

theorem triageKept_perm {ε : Type} (classify : Image → Except ε Bool) (all_images : List Image)
    (schedule : List Nat) (hperm : schedule.Perm (List.range all_images.length)) :
    (triageKept classify all_images schedule).Perm
      (all_images.filter fun img => keepVerdict (classify img)) := by
  have h1 := hperm.filterMap fun idx =>
    (all_images.get? idx).bind fun img =>
      if keepVerdict (classify img) then some img else none
  have h2 : ((List.range all_images.length).filterMap fun idx =>
      (all_images.get? idx).bind fun img =>
        if keepVerdict (classify img) then some img else none) =
      all_images.filter fun img => keepVerdict (classify img) := by
    rw [filterMap_range_get all_images
      fun img => if keepVerdict (classify img) then some img else none]
    exact filterMap_guard _ all_images
  exact h2 ▸ h1

theorem pairwise_indexOf {α : Type} [DecidableEq α] :
    ∀ (l : List α), l.Nodup → l.Pairwise fun a b => l.indexOf a < l.indexOf b := by
  intro l
  induction l with
  | nil => intro _; exact List.Pairwise.nil
  | cons x xs ih =>
    intro hnd
    rcases List.nodup_cons.mp hnd with ⟨hx, hnd'⟩
    refine List.Pairwise.cons ?_ ?_
    · intro b hb
      have hbx : x ≠ b := fun hc => hx (hc ▸ hb)
      rw [List.indexOf_cons_self, List.indexOf_cons_ne _ hbx]
      exact Nat.succ_pos _
    · refine List.Pairwise.imp_of_mem ?_ (ih hnd')
      intro a b ha hb hab
      have hax : x ≠ a := fun hc => hx (hc ▸ ha)
      have hbx : x ≠ b := fun hc => hx (hc ▸ hb)
      rw [List.indexOf_cons_ne _ hax, List.indexOf_cons_ne _ hbx]
      exact Nat.succ_lt_succ hab

/-- The discovery-order sort of the surviving candidates equals the filter of the
candidate list in its original order, for every classification completion order
that is a permutation of the candidate indices. -/
theorem sortByDiscovery_filter {ε : Type} (classify : Image → Except ε Bool)
    (all_images : List Image) (schedule : List Nat)
    (hnd : all_images.Nodup) (hperm : schedule.Perm (List.range all_images.length)) :
    sortByDiscovery all_images (triageKept classify all_images schedule) =
      all_images.filter fun img => keepVerdict (classify img) := by
  have hkp : (triageKept classify all_images schedule).Perm
      (all_images.filter fun img => keepVerdict (classify img)) :=
    triageKept_perm classify all_images schedule hperm
  haveI htot : IsTotal Image fun a b =>
      List.indexOf a all_images ≤ List.indexOf b all_images :=
    ⟨fun a b => Nat.le_total _ _⟩
  haveI htrans : IsTrans Image fun a b =>
      List.indexOf a all_images ≤ List.indexOf b all_images :=
    ⟨fun a b c => Nat.le_trans⟩
  have hsorted : (sortByDiscovery all_images (triageKept classify all_images schedule)).Sorted
      fun a b => List.indexOf a all_images ≤ List.indexOf b all_images :=
    List.sorted_insertionSort _ _
  have hperm2 : (sortByDiscovery all_images (triageKept classify all_images schedule)).Perm
      (triageKept classify all_images schedule) :=
    List.perm_insertionSort _ _
  have hfil_nd : (all_images.filter fun img => keepVerdict (classify img)).Nodup :=
    hnd.filter _
  have hnd2 : (sortByDiscovery all_images (triageKept classify all_images schedule)).Nodup :=
    (hperm2.trans hkp).nodup_iff.mpr hfil_nd
  have hmem : ∀ a ∈ sortByDiscovery all_images (triageKept classify all_images schedule),
      a ∈ all_images := by
    intro a ha
    exact List.mem_of_mem_filter ((hperm2.trans hkp).mem_iff.mp ha)
  have hpair1 : (sortByDiscovery all_images (triageKept classify all_images schedule)).Pairwise
      fun a b => List.indexOf a all_images < List.indexOf b all_images := by
    refine List.Pairwise.imp_of_mem ?_ (hsorted.and hnd2)
    intro a b ha hb hab
    rcases hab with ⟨hle, hne⟩
    have h1 : List.indexOf a all_images ≠ List.indexOf b all_images := fun hc =>
      hne ((List.indexOf_inj (hmem a ha) (hmem b hb)).mp hc)
    omega
  have hpair2 : (all_images.filter fun img => keepVerdict (classify img)).Pairwise
      fun a b => List.indexOf a all_images < List.indexOf b all_images :=
    List.Pairwise.sublist (List.filter_sublist all_images) (pairwise_indexOf all_images hnd)
  haveI hanti : IsAntisymm Image fun a b =>
      List.indexOf a all_images < List.indexOf b all_images :=
    ⟨fun a b h1 h2 => absurd h1 (Nat.lt_asymm h2)⟩
  exact List.eq_of_perm_of_sorted (hperm2.trans hkp) hpair1 hpair2

/-- C3: after all classification results are in, the surviving candidates are the
discovery-order filter of the candidate list — never ordered by classification
completion — and the rename phase assigns contiguous numbers 1..k in that order,
renaming each file to figure_<n> with its own extension. -/
theorem C3_stable_compaction {ε : Type} (classify : Image → Except ε Bool)
    (all_images : List Image) (schedule : List Nat)
    (hnd : all_images.Nodup) (hperm : schedule.Perm (List.range all_images.length)) :
    sortByDiscovery all_images (triageKept classify all_images schedule) =
      all_images.filter (fun img => keepVerdict (classify img)) ∧
    triageFigures classify all_images schedule =
      (all_images.filter fun img => keepVerdict (classify img)).enum.map
        fun ji => { stem := str "figure_" ++ natStr (ji.1 + 1), suffix := ji.2.suffix } := by
  have h := sortByDiscovery_filter classify all_images schedule hnd hperm
  refine ⟨h, ?_⟩
  rw [triageFigures, h]
  rfl

/-- Concrete candidates for the triage witnesses. -/
def exImg0 : Image := ⟨str "im0", str ".png"⟩

def exImg1 : Image := ⟨str "im1", str ".jpg"⟩

def exImg2 : Image := ⟨str "im2", str ".png"⟩

def exImg3 : Image := ⟨str "im3", str ".gif"⟩

def exImages : List Image := [exImg0, exImg1, exImg2, exImg3]

/-- Verdicts [Figure, Artifact, Figure, Figure] for the four candidates. -/
def exClassify : Image → Except Unit Bool := fun im =>
  if im = exImg1 then .ok false else .ok true

/-- Witness for C3: verdicts [Figure, Artifact, Figure, Figure] under the
scrambled completion order [2, 0, 3, 1] still number figure_1 from position 0,
figure_2 from position 2 and figure_3 from position 3. -/
theorem C3_stable_compaction_witness :
    exImages.Nodup ∧ (([2, 0, 3, 1] : List Nat).Perm (List.range exImages.length)) ∧
    sortByDiscovery exImages (triageKept exClassify exImages [2, 0, 3, 1]) =
      exImages.filter (fun img => keepVerdict (exClassify img)) ∧
    triageFigures exClassify exImages [2, 0, 3, 1] =
      [⟨str "figure_1", str ".png"⟩, ⟨str "figure_2", str ".png"⟩,
        ⟨str "figure_3", str ".gif"⟩] :=
  ⟨by decide, by decide,
    (C3_stable_compaction exClassify exImages [2, 0, 3, 1] (by decide) (by decide)).1,
    by decide⟩

/- ===== Claim C8 ===== -/

theorem keepVerdict_eq_false {ε : Type} {v : Except ε Bool} :
    keepVerdict v = false ↔ v = .ok false := by
  cases v with
  | error e => simp [keepVerdict]
  | ok b => cases b <;> simp [keepVerdict]

/-- C8: a candidate whose classification call raises is kept fail-open — it is in
the surviving sorted figure set and its file is not deleted — and only candidates
affirmatively classified as artifacts are ever deleted. -/
theorem C8_classification_fail_open {ε : Type} (classify : Image → Except ε Bool)
    (all_images : List Image) (schedule : List Nat) (img : Image) (e : ε)
    (hperm : schedule.Perm (List.range all_images.length))
    (himg : img ∈ all_images) (herr : classify img = .error e) :
    img ∈ sortByDiscovery all_images (triageKept classify all_images schedule) ∧
    img ∉ triageDeleted classify all_images schedule ∧
    ∀ d ∈ triageDeleted classify all_images schedule, classify d = .ok false := by
  have hkeep : keepVerdict (classify img) = true := by rw [herr]; rfl
  refine ⟨?_, ?_, ?_⟩
  · have hperm2 := List.perm_insertionSort
      (fun a b => List.indexOf a all_images ≤ List.indexOf b all_images)
      (triageKept classify all_images schedule)
    have hkp := triageKept_perm classify all_images schedule hperm
    rw [sortByDiscovery]
    rw [hperm2.mem_iff, hkp.mem_iff, List.mem_filter]
    exact ⟨himg, hkeep⟩
  · intro hmem
    obtain ⟨idx, _, hF⟩ := List.mem_filterMap.mp hmem
    revert hF
    cases hg : all_images.get? idx with
    | none => simp
    | some img' =>
      cases hkv : keepVerdict (classify img') with
      | true => simp [hkv]
      | false =>
        simp [hkv]
        intro hc
        subst hc
        rw [hkeep] at hkv
        exact Bool.noConfusion hkv
  · intro d hmem
    obtain ⟨idx, _, hF⟩ := List.mem_filterMap.mp hmem
    revert hF
    cases hg : all_images.get? idx with
    | none => simp
    | some img' =>
      cases hkv : keepVerdict (classify img') with
      | true => simp [hkv]
      | false =>
        simp [hkv]
        intro hc
        subst hc
        exact keepVerdict_eq_false.mp hkv

/-- Verdicts with an error for candidate 1 and an artifact verdict for
candidate 2. -/
def exClassifyErr : Image → Except Unit Bool := fun im =>
  if im = exImg1 then .error () else if im = exImg2 then .ok false else .ok true

/-- Witness for C8: the candidate with the failing classification call survives
triage, is not deleted, and the only deleted candidate is the affirmatively
classified artifact. -/
theorem C8_classification_fail_open_witness :
    (([1, 3, 0, 2] : List Nat).Perm (List.range exImages.length)) ∧
    exImg1 ∈ exImages ∧ exClassifyErr exImg1 = .error () ∧
    (exImg1 ∈ sortByDiscovery exImages (triageKept exClassifyErr exImages [1, 3, 0, 2]) ∧
      exImg1 ∉ triageDeleted exClassifyErr exImages [1, 3, 0, 2] ∧
      ∀ d ∈ triageDeleted exClassifyErr exImages [1, 3, 0, 2],
        exClassifyErr d = .ok false) :=
  ⟨by decide, by decide, rfl,
    C8_classification_fail_open exClassifyErr exImages [1, 3, 0, 2] exImg1 ()
      (by decide) (by decide) rfl⟩

/- ===== Claim C1 ===== -/

/-- Two renamed figures, as they stand after triage. -/
def exFig1 : Image := ⟨str "figure_1", str ".png"⟩

def exFig2 : Image := ⟨str "figure_2", str ".png"⟩

/-- Description worker: the call made for figure 1 produces "ONE", the call made
for figure 2 produces "TWO"; both succeed. -/
def exDescribe : Nat → Image → Except Unit Str := fun i _ =>
  .ok (if i = 1 then str "ONE" else str "TWO")

/-- C1 fails on the code: when the description call for figure 2 completes before
the one for figure 1 (completion schedule [1, 0]), the dict holds the results in
completion order and the merge enumerates the dict positionally while ignoring
its keys, so the Figure 1 heading and image reference are paired with the
description generated for figure 2, and the merged document differs from the one
produced under in-order completion. -/
theorem C1_description_mispairing :
    buildDescriptions exDescribe [exFig1, exFig2] [1, 0] =
      [(str "figure_2", str "TWO"), (str "figure_1", str "ONE")] ∧
    pyContains (str "### Figure 1\n\n![Figure 1](img/figure_1.png)\n\n**Description:** TWO")
      (insert_figure_descriptions (str "Doc")
        (buildDescriptions exDescribe [exFig1, exFig2] [1, 0]) [exFig1, exFig2]) = true ∧
    insert_figure_descriptions (str "Doc")
        (buildDescriptions exDescribe [exFig1, exFig2] [1, 0]) [exFig1, exFig2] ≠
      insert_figure_descriptions (str "Doc")
        (buildDescriptions exDescribe [exFig1, exFig2] [0, 1]) [exFig1, exFig2] :=
  ⟨by decide, by decide, by decide⟩

/- ===== Claim C7 ===== -/

def exDescs : List (Str × Str) := [(str "figure_1", str "D")]

def exRefsDoc : Str := str "A## References B## References"

set_option maxRecDepth 8000 in
/-- C7 counterexample: a document containing the References heading twice gets
the figures block inserted immediately before every occurrence — twice — rather
than exactly once before the trailing heading. -/
theorem C7_counterexample :
    insert_figure_descriptions exRefsDoc exDescs [exFig1] =
      str "A" ++ figures_section exDescs [exFig1] ++ str "## References B" ++
        figures_section exDescs [exFig1] ++ str "## References" ∧
    (pySplitOn (figures_section exDescs [exFig1])
      (insert_figure_descriptions exRefsDoc exDescs [exFig1])).length = 3 ∧
    insert_figure_descriptions exRefsDoc exDescs [exFig1] ≠
      str "A## References B" ++ figures_section exDescs [exFig1] ++ str "## References" :=
  ⟨by decide, by decide, by decide⟩

/-- C7 (amended): when "## References" occurs in the document the block is
inserted immediately before every occurrence (hence exactly once when the
heading occurs exactly once, trailing or not), otherwise the block is appended
at the end; in all cases the rest of the document text is preserved. -/
theorem C7_references_insertion (markdown : Str) (descriptions : List (Str × Str))
    (figure_paths : List Image) :
    (pyContains (str "## References") markdown = false →
      insert_figure_descriptions markdown descriptions figure_paths =
        markdown ++ figures_section descriptions figure_paths) ∧
    (pyContains (str "## References") markdown = true →
      insert_figure_descriptions markdown descriptions figure_paths =
        pyJoin (figures_section descriptions figure_paths ++ str "## References")
          (pySplitOn (str "## References") markdown) ∧
      pyJoin (str "## References") (pySplitOn (str "## References") markdown) = markdown ∧
      2 ≤ (pySplitOn (str "## References") markdown).length) ∧
    (∀ a b : Str, pySplitOn (str "## References") markdown = [a, b] →
      markdown = a ++ str "## References" ++ b ∧
      insert_figure_descriptions markdown descriptions figure_paths =
        a ++ figures_section descriptions figure_paths ++ str "## References" ++ b) := by
  refine ⟨?_, ?_, ?_⟩
  · intro hnc
    rw [insert_figure_descriptions]
    rw [if_neg (by simp [hnc])]
  · intro hc
    have hrepl : insert_figure_descriptions markdown descriptions figure_paths =
        pyReplace (str "## References")
          (figures_section descriptions figure_paths ++ str "## References") markdown := by
      rw [insert_figure_descriptions, if_pos (by simp [hc])]
    refine ⟨?_, pyJoin_pySplitOn _ (by decide) markdown, ?_⟩
    · rw [hrepl, pyReplace_eq_pyJoin]
    · rcases ho : findSplit (str "## References") markdown with _ | pr
      · rw [pyContains, ho] at hc
        simp at hc
      · obtain ⟨p, r⟩ := pr
        rw [pySplitOn_eq, ho]
        have hne := pySplitOn_ne_nil (str "## References") r
        have hlen : 0 < (pySplitOn (str "## References") r).length :=
          List.length_pos.mpr hne
        show 2 ≤ (p :: pySplitOn (str "## References") r).length
        simp only [List.length_cons]
        omega
  · intro a b hab
    have hab0 := hab
    rcases ho : findSplit (str "## References") markdown with _ | pr
    · rw [pySplitOn_eq, ho] at hab
      injection hab with h1 h2
      exact absurd h2 (by simp)
    · obtain ⟨p, r⟩ := pr
      rw [pySplitOn_eq, ho] at hab
      injection hab with h1 h2
      subst h1
      have hr : r = b := by
        have hj := pyJoin_pySplitOn (str "## References") (by decide) r
        rw [h2] at hj
        simpa [pyJoin] using hj.symm
      subst hr
      have hdec := findSplit_decomp (show str "## References" ≠ [] by decide) ho
      refine ⟨by simpa using hdec, ?_⟩
      have hc : pyContains (str "## References") markdown = true := by
        rw [pyContains, ho]
        rfl
      rw [insert_figure_descriptions, if_pos (by simp [hc]), pyReplace_eq_pyJoin, hab0,
        pyJoin_cons_cons]
      simp [pyJoin, List.append_assoc]

/-- Witness for C7 (amended) at a concrete input: a document with exactly one
trailing References heading receives the block exactly once, immediately before
the heading. -/
theorem C7_references_insertion_witness :
    pySplitOn (str "## References") (str "Intro\n\n## References\n\nrefs") =
      [str "Intro\n\n", str "\n\nrefs"] ∧
    (str "Intro\n\n## References\n\nrefs" =
      str "Intro\n\n" ++ str "## References" ++ str "\n\nrefs" ∧
    insert_figure_descriptions (str "Intro\n\n## References\n\nrefs") exDescs [exFig1] =
      str "Intro\n\n" ++ figures_section exDescs [exFig1] ++ str "## References" ++
        str "\n\nrefs") :=
  ⟨by decide, (C7_references_insertion (str "Intro\n\n## References\n\nrefs") exDescs
    [exFig1]).2.2 (str "Intro\n\n") (str "\n\nrefs") (by decide)⟩
